import Mathlib

/-!
# Verification of the Workiva IGAM reporting pipeline

A shallow embedding of the decision logic of `W_IGAM_Request_new.py`:
the extraction/filter engine (`extract_user_data`), the role expansion,
sorting and CSV serialization (`save_to_csv`), and the SMTP failover
dispatch loop (`send_email`).  Python strings are modelled as lists of
characters, Python dynamic values (for the `active` attribute) as an
explicit `PyVal` type, and I/O as explicit environment parameters
(filesystem flags, per-endpoint SMTP outcomes).
-/

namespace WIgam

/-! ## Python string primitives, modelled on lists of characters -/

/-- A Python string, as its sequence of characters. -/
abbrev Str := List Char

/-- `str.lower()`: character-wise lowercasing. -/
def lower (s : Str) : Str := s.map Char.toLower

/-- The whitespace characters removed by Python's `str.strip()`. -/
def pyIsSpace (c : Char) : Bool :=
  c = ' ' || c = '\t' || c = '\n' || c = '\r' || c = '\x0b' || c = '\x0c'

/-- `str.strip()`: remove leading and trailing whitespace. -/
def trim (s : Str) : Str :=
  ((s.dropWhile pyIsSpace).reverse.dropWhile pyIsSpace).reverse

/-- `str.split(c)` for a one-character separator: Python semantics
(`''.split(c) = ['']`, separators produce empty fields). -/
def splitOnChar (c : Char) : Str → List Str
  | [] => [[]]
  | x :: xs =>
    if x = c then [] :: splitOnChar c xs
    else
      match splitOnChar c xs with
      | [] => [[x]]
      | h :: t => (x :: h) :: t

/-- `sep.join(xs)` for Python lists of strings. -/
def joinSep (sep : Str) : List Str → Str
  | [] => []
  | [x] => x
  | x :: y :: t => x ++ sep ++ joinSep sep (y :: t)

/-- The intra-group role separator `', '`. -/
def comsp : Str := ", ".toList

/-- The membership-group separator `' | '`. -/
def spbarsp : Str := " | ".toList

/-- A Python runtime value, as far as the `active` attribute is concerned:
the code applies truthiness (`if not user_active`) and `str()` to it. -/
inductive PyVal where
  | vbool : Bool → PyVal
  | vint : Int → PyVal
  | vstr : Str → PyVal
  | vnone : PyVal
deriving DecidableEq

/-- Python truthiness of a `PyVal`. -/
def truthy : PyVal → Bool
  | .vbool b => b
  | .vint n => n ≠ 0
  | .vstr s => s ≠ []
  | .vnone => false

/-- Python `str()` of a `PyVal`. -/
def pyStr : PyVal → Str
  | .vbool true => "True".toList
  | .vbool false => "False".toList
  | .vint n => (toString n).toList
  | .vstr s => s
  | .vnone => "None".toList

/-! ## Data model of the raw API response (§ API Response Format in the code) -/

/-- One entry of `attributes['workspaceMemberships']`.  Only the
`workspaceRoles` field is consulted by the pipeline (`workspaceId` feeds
logging only); `none` models an absent key, for which the code supplies
the default `['No role']`. -/
structure Membership where
  workspaceRoles : Option (List Str)
deriving DecidableEq

/-- The `attributes` mapping of one raw user record.  `none` in a field
models an absent key (`dict.get` default applies). -/
structure Attrs where
  userName : Option Str
  email : Option Str
  active : Option PyVal
  workspaceMemberships : Option (List Membership)
  organizationRoles : Option (List Str)
deriving DecidableEq

/-- One element of the API response's `data` array; `attributes` may be
absent. -/
structure RawUser where
  attributes : Option Attrs
deriving DecidableEq

/-- A processed user record as built by `extract_user_data`
(`Username`, `Email`, `Active`, `Roles`, all Python strings). -/
structure Rec where
  username : Str
  email : Str
  active : Str
  roles : Str
deriving DecidableEq

/-! ## Extraction & filter engine (`extract_user_data`) -/

/-- `', '.join(workspace.get('workspaceRoles', ['No role']))`:
the joined role group contributed by one workspace membership. -/
def membershipGroup (m : Membership) : Str :=
  joinSep comsp (m.workspaceRoles.getD ["No role".toList])

/-- The role lists per membership, with the code's `['No role']` default
for an absent `workspaceRoles` key. -/
def rolesOf (m : Membership) : List Str :=
  m.workspaceRoles.getD ["No role".toList]

/-- `workspace_memberships`: `' | '.join(...)` over the membership
groups when `attributes.get('workspaceMemberships')` is truthy (a
non-empty list), the empty string otherwise. -/
def wsString (a : Attrs) : Str :=
  let mss := a.workspaceMemberships.getD []
  if mss = [] then []
  else joinSep spbarsp (mss.map membershipGroup)

/-- `org_roles = ', '.join(attributes.get('organizationRoles', []))`. -/
def orgString (a : Attrs) : Str :=
  joinSep comsp (a.organizationRoles.getD [])

/-- The final `Roles` value: org roles are appended (after `', '`) to the
workspace string only when the org string is non-empty; when the
workspace string is empty the org string replaces it. -/
def rolesString (a : Attrs) : Str :=
  let ws := wsString a
  let org := orgString a
  if org = [] then ws
  else if ws = [] then org
  else ws ++ comsp ++ org

/-- The allowed-domain literal `'@sce.com'`. -/
def sceSuffix : Str := "@sce.com".toList

/-- The allowed-domain literal `'@edisonintl.com'`. -/
def edisonSuffix : Str := "@edisonintl.com".toList

/-- The domain filter: `email.endswith('@sce.com') or
email.endswith('@edisonintl.com')` on the already-lowercased email. -/
def domainOk (email : Str) : Bool :=
  sceSuffix.isSuffixOf email || edisonSuffix.isSuffixOf email

/-- The record `extract_user_data` appends for a surviving user. -/
def mkRec (a : Attrs) : Rec :=
  { username := lower (a.userName.getD [])
    email := lower (a.email.getD [])
    active := pyStr (a.active.getD (.vbool false))
    roles := rolesString a }

/-- How `extract_user_data` disposes of one raw record: the three
`continue` branches (each incrementing its counter) or emission. -/
inductive PerUser where
  | missingAttrs
  | domainFiltered
  | inactiveFiltered
  | emitted (r : Rec)
deriving DecidableEq

/-- The per-record filter chain applied to a record that has
`attributes`: domain check on the lowercased email, then the
truthiness test `if not attributes.get('active', False)`. -/
def classifyAttrs (a : Attrs) : PerUser :=
  let email := lower (a.email.getD [])
  if ¬ domainOk email then .domainFiltered
  else if ¬ truthy (a.active.getD (.vbool false)) then .inactiveFiltered
  else .emitted (mkRec a)

/-- Disposition of one element of the `data` array. -/
def processUser (u : RawUser) : PerUser :=
  match u.attributes with
  | none => .missingAttrs
  | some a => classifyAttrs a

/-- The contribution of one raw record to the output list: `some` of the
built record when it survives, `none` when a `continue` skipped it. -/
def emitOf (u : RawUser) : Option Rec :=
  match processUser u with
  | .emitted r => some r
  | _ => none

/-- `extract_user_data`: `none` models an API payload that is falsy or
lacks the `data` field (both return the empty list); otherwise the
records surviving the filter chain, in order. -/
def extract_user_data (api : Option (List RawUser)) : List Rec :=
  match api with
  | none => []
  | some us => us.filterMap emitOf

/-! ## Role expansion, sorting and CSV serialization (`save_to_csv`) -/

/-- The role tokens the expansion loop emits from a `Roles` string:
split on `'|'`, split each part on `','`, strip each piece, keep the
non-empty ones (`if membership.strip():`). -/
def roleTokens (roles : Str) : List Str :=
  ((splitOnChar '|' roles).map
    (fun part => (splitOnChar ',' part).map trim)).flatten.filter (· ≠ [])

/-- The non-empty stripped comma tokens of one pipe-part (proof helper:
`roleTokens` groups as this, part by part). -/
def commaTokens (part : Str) : List Str :=
  ((splitOnChar ',' part).map trim).filter (· ≠ [])

/-- A role string that survives the round trip through the joined
`Roles` string intact: non-empty, stripped, and free of the two
delimiter characters. -/
def wfRole (r : Str) : Prop :=
  r ≠ [] ∧ trim r = r ∧ ',' ∉ r ∧ '|' ∉ r

instance : DecidablePred wfRole := fun r => by
  unfold wfRole
  infer_instance

/-- Proof helper: the suffix `rolesString` appends for the organization
roles (empty when there are none). -/
def orgTail (org : List Str) : Str :=
  if org = [] then [] else comsp ++ joinSep comsp org

/-- The rows the expansion loop emits for one record: when `Roles` is a
truthy (non-empty) string, one copied row per surviving token with
`Roles` replaced by that token; when it is empty, the record itself,
once, unchanged. -/
def expandRecord (r : Rec) : List Rec :=
  if r.roles ≠ [] then (roleTokens r.roles).map fun t => { r with roles := t }
  else [r]

/-- `expanded_data` before sorting. -/
def expandData (data : List Rec) : List Rec :=
  (data.map expandRecord).flatten

/-- The sort relation of `expanded_data.sort(key=lambda x: x['Username'])`:
plain (case-sensitive) lexicographic comparison of the `Username`
strings. -/
def rowLe (a b : Rec) : Prop := a.username ≤ b.username

instance : DecidableRel rowLe := fun a b => by
  unfold rowLe; infer_instance

instance : IsTotal Rec rowLe :=
  ⟨fun a b => le_total a.username b.username⟩

instance : IsTrans Rec rowLe :=
  ⟨fun _ _ _ h h' => le_trans h h'⟩

/-- Python's `list.sort` is a stable sort by the key; any stable sort
with respect to a total preorder computes the same list, so insertion
sort is an exact model. -/
def sortRows (l : List Rec) : List Rec := l.insertionSort rowLe

/-- The filesystem/environment behaviour `save_to_csv` can encounter. -/
structure FS where
  dirExists : Bool
  mkdirFails : Bool
  writeFails : Bool
deriving DecidableEq

/-- The externally visible I/O events of one `save_to_csv` run:
a directory-creation attempt, or the CSV write attempt carrying the
rows handed to the writer. -/
inductive Ev where
  | mkdir
  | write (rows : List Rec)
deriving DecidableEq

/-- The `try:` body of `save_to_csv`.  `Except.error` models an
exception escaping to the `except` handlers, carrying the events that
already happened; `Except.ok` is a normal `return`, carrying the
returned boolean and the events. -/
def saveBody (data : List Rec) (fs : FS) : Except (List Ev) (Bool × List Ev) :=
  -- `if not os.path.exists(output_dir): os.makedirs(output_dir)` —
  -- unguarded inside the try block, so a makedirs failure raises.
  let ev0 : List Ev := if fs.dirExists then [] else [.mkdir]
  if ¬ fs.dirExists ∧ fs.mkdirFails then .error ev0
  else
    -- `if not data: return False` — the empty input returns early,
    -- before any write.
    if data = [] then .ok (false, ev0)
    else
      -- expansion, sort, then `open(...)`/`writer.writerows(...)`.
      let rows := sortRows (expandData data)
      if fs.writeFails then .error (ev0 ++ [.write rows])
      else .ok (true, ev0 ++ [.write rows])

/-- `save_to_csv`: the `except PermissionError/IOError/Exception`
handlers all return `False`. -/
def save_to_csv (data : List Rec) (fs : FS) : Bool × List Ev :=
  match saveBody data fs with
  | .ok r => r
  | .error evs => (false, evs)

/-! ## Notification dispatcher (`send_email`) -/

/-- The distinct exception categories of the failover loop
(`socket.gaierror`, `ConnectionRefusedError`, `SMTPAuthenticationError`,
`SMTPException`, `Exception`) — all handled by `continue`. -/
inductive Fault where
  | dns
  | connRefused
  | authFail
  | smtpErr
  | unexpected
deriving DecidableEq

/-- One SMTP endpoint descriptor of the `smtp_configs` list. -/
structure Endpoint where
  server : Str
  port : Nat
  useTls : Bool
deriving DecidableEq

/-- The email section of the loaded configuration, as consulted by
`send_email`. -/
structure EmailCfg where
  enabled : Bool
  smtpServer : Str
  smtpPort : Nat
  recipients : List Str
deriving DecidableEq

/-- The application configuration built by `load_config` (the fields
`send_email` reads). -/
structure AppCfg where
  outputDir : Str
  fileName : Str
  email : Option EmailCfg
deriving DecidableEq

/-- The value held by the module-level `config` variable: the dictionary
from `load_config`, or — after the dispatch loop has run — an SMTP
endpoint descriptor, since `send_email` declares `global config` and the
loop `for i, config in enumerate(smtp_configs):` rebinds that global. -/
inductive GlobalConfig where
  | app (c : AppCfg)
  | endpoint (e : Endpoint)
deriving DecidableEq

/-- The hardcoded failover list `smtp_configs`: the configured endpoint
with TLS then without, the alternate SCE relays, then the Office 365
fallbacks. -/
def smtpConfigs (server : Str) (port : Nat) : List Endpoint :=
  [ ⟨server, port, true⟩,
    ⟨server, port, false⟩,
    ⟨"mail.sce.com".toList, 25, false⟩,
    ⟨"relay.sce.com".toList, 25, false⟩,
    ⟨"smtp.sce.com".toList, 587, true⟩,
    ⟨"smtp.sce.com".toList, 2525, false⟩,
    ⟨"smtp.office365.com".toList, 587, true⟩,
    ⟨"outlook.office365.com".toList, 587, true⟩ ]

/-- The failover loop.  `attempt` is the environment: the outcome of a
connection/handoff attempt against a given endpoint (`none` = handoff
completed).  The state component is the module-level `config` global,
which each iteration rebinds to the current endpoint descriptor; the
last component is the ordered trace of endpoints actually attempted.
First success returns `true` immediately; every fault is caught and the
loop continues. -/
def dispatchLoop (attempt : Endpoint → Option Fault) :
    List Endpoint → GlobalConfig → Bool × GlobalConfig × List Endpoint
  | [], g => (false, g, [])
  | e :: rest, _ =>
    match attempt e with
    | none => (true, .endpoint e, [e])
    | some _ =>
      let r := dispatchLoop attempt rest (.endpoint e)
      (r.1, r.2.1, e :: r.2.2)

/-- The `try:` body of `send_email` after composition: the disabled and
missing-settings early returns, then the failover loop; exhausting the
endpoint list raises (`raise Exception(...)`), modelled as
`Except.error` carrying the (already clobbered) global. -/
def sendEmailBody (c0 : AppCfg) (attempt : Endpoint → Option Fault) :
    Except GlobalConfig (Bool × GlobalConfig) :=
  match c0.email with
  | none => .ok (false, .app c0)
  | some ec =>
    if ¬ ec.enabled then .ok (false, .app c0)
    else if ec.recipients = [] ∨ ec.smtpServer = [] then .ok (false, .app c0)
    else
      let r := dispatchLoop attempt (smtpConfigs ec.smtpServer ec.smtpPort) (.app c0)
      if r.1 then .ok (true, r.2.1)
      else .error r.2.1

/-- `send_email`: the outer `except Exception` handler converts any
escaped exception to the boolean result `False`; the result is the pair
(returned boolean, final value of the module-level `config` global). -/
def send_email (c0 : AppCfg) (attempt : Endpoint → Option Fault) :
    Bool × GlobalConfig :=
  match sendEmailBody c0 attempt with
  | .ok r => r
  | .error g => (false, g)

/-! ## Theorems: extraction and filtering (claims C1, C4) -/

/-- The per-record contribution to the output is determined by the
suffix match on the lowercased email and the truthiness of `active`. -/
theorem emitOf_attrs (u : RawUser) (a : Attrs) (h : u.attributes = some a) :
    emitOf u =
      (if domainOk (lower (a.email.getD [])) ∧ truthy (a.active.getD (.vbool false))
       then some (mkRec a) else none) := by
  simp only [emitOf, processUser, h, classifyAttrs]
  by_cases h1 : domainOk (lower (a.email.getD [])) <;>
    by_cases h2 : truthy (a.active.getD (.vbool false)) <;>
      simp [h1, h2]

/-- C1: for every raw user record with an attributes field, the
extraction output contains exactly one canonical record derived from it
(the record built by the code) iff its lowercased email ends with
`'@sce.com'` or `'@edisonintl.com'` (literal suffix match on the full
address) and it passes the active filter; otherwise it contributes
nothing.  Stated as the exact shape of the output around an arbitrary
occurrence of the record. -/
theorem extract_domain_filter_iff (us₁ us₂ : List RawUser) (u : RawUser)
    (a : Attrs) (h : u.attributes = some a) :
    extract_user_data (some (us₁ ++ u :: us₂)) =
      extract_user_data (some us₁) ++
        (if domainOk (lower (a.email.getD [])) ∧ truthy (a.active.getD (.vbool false))
         then [mkRec a] else []) ++
      extract_user_data (some us₂) := by
  simp only [extract_user_data, List.filterMap_append, List.filterMap_cons,
    emitOf_attrs u a h]
  by_cases hc : domainOk (lower (a.email.getD [])) ∧ truthy (a.active.getD (.vbool false)) <;>
    simp [hc]

/-- Concrete instance of `extract_domain_filter_iff`: the spec's own
example record (`Jane.Doe@SCE.com`, active) is emitted. -/
def c1Attrs : Attrs :=
  { userName := some "Jane.Doe".toList
    email := some "Jane.Doe@SCE.com".toList
    active := some (.vbool true)
    workspaceMemberships := some [⟨some ["Admin".toList, "User".toList]⟩]
    organizationRoles := some ["Viewer".toList] }

theorem extract_domain_filter_iff_witness :
    (RawUser.mk (some c1Attrs)).attributes = some c1Attrs ∧
    extract_user_data (some [⟨some c1Attrs⟩]) =
      extract_user_data (some []) ++
        (if domainOk (lower (c1Attrs.email.getD [])) ∧
            truthy (c1Attrs.active.getD (.vbool false))
         then [mkRec c1Attrs] else []) ++
      extract_user_data (some []) :=
  ⟨rfl, extract_domain_filter_iff [] [] ⟨some c1Attrs⟩ c1Attrs rfl⟩

/-- A record whose `active` attribute is the integer `1` — truthy, but
not the boolean `true`. -/
def c4Attrs : Attrs :=
  { userName := some "JDoe".toList
    email := some "jdoe@sce.com".toList
    active := some (.vint 1)
    workspaceMemberships := none
    organizationRoles := none }

/-- C4 counterexample: the code tests `if not user_active` (Python
truthiness), not `active == True`, so a record with `active = 1` — a
truthy non-boolean — IS emitted (with `Active` serialized as `str(1)`),
contradicting the claim that no record with a value other than the
strict boolean `true` is emitted. -/
theorem active_truthiness_counterexample :
    c4Attrs.active = some (.vint 1) ∧ PyVal.vint 1 ≠ .vbool true ∧
    processUser ⟨some c4Attrs⟩ =
      .emitted { username := "jdoe".toList, email := "jdoe@sce.com".toList,
                 active := "1".toList, roles := [] } := by
  decide

/-- C4 amended: a record that has attributes is dropped and counted as
filtered-inactive iff it passes the domain filter and its `active` value
(defaulting to `False` when absent) is FALSY under Python truthiness;
truthy non-boolean values (such as the integer 1 or a non-empty string)
pass the filter and are emitted. -/
theorem active_filter_is_truthiness (a : Attrs) :
    classifyAttrs a = .inactiveFiltered ↔
      (domainOk (lower (a.email.getD [])) = true ∧
       truthy (a.active.getD (.vbool false)) = false) := by
  simp only [classifyAttrs]
  by_cases h1 : domainOk (lower (a.email.getD [])) <;>
    by_cases h2 : truthy (a.active.getD (.vbool false)) <;>
      simp [h1, h2]

/-! ## Theorems: role expansion count (claim C2) -/

/-- A canonical record whose `Roles` string is `","`: non-empty, so the
expansion loop runs, but both comma tokens strip to the empty string. -/
def c2Rec : Rec :=
  { username := "user".toList, email := "user@sce.com".toList,
    active := "True".toList, roles := ",".toList }

/-- C2 counterexample: a record whose non-empty roles string yields zero
non-empty tokens produces ZERO expanded rows — the record is silently
dropped — whereas the claim requires `max(1, 0) = 1` row.  The
once-with-empty-roles fallback fires only when the roles string is
empty (`if roles:` is falsy), not whenever the token list is empty. -/
theorem expansion_count_counterexample :
    (expandRecord c2Rec).length = 0 ∧
    max 1 (roleTokens c2Rec.roles).length = 1 ∧
    (expandRecord c2Rec).length ≠ max 1 (roleTokens c2Rec.roles).length := by
  decide

/-- C2 amended: a record with an empty roles string is emitted exactly
once, unchanged (empty roles value); a record with a non-empty roles
string yields exactly one row per non-empty stripped token — which is
zero rows (the record is dropped) when every token strips to empty. -/
theorem expansion_count (r : Rec) :
    (expandRecord r).length =
      (if r.roles = [] then 1 else (roleTokens r.roles).length) ∧
    expandRecord { r with roles := [] } = [{ r with roles := [] }] := by
  constructor
  · by_cases h : r.roles = [] <;> simp [expandRecord, h]
  · simp [expandRecord]

/-! ## Theorems: serialization error handling (claims C6, C7) -/

/-- A surviving record to serialize. -/
def c6Rec : Rec :=
  { username := "user".toList, email := "user@sce.com".toList,
    active := "True".toList, roles := "Admin".toList }

/-- C6 counterexample: with the destination directory absent and
directory creation failing (the write itself would succeed), the
`os.makedirs` exception — unguarded inside the `try:` — propagates to
the outer handlers, which return `False` BEFORE any write attempt: the
event trace is exactly `[mkdir]`, with no write event, refuting
"creation failure is non-fatal to the write attempt". -/
theorem mkdir_failure_counterexample :
    save_to_csv [c6Rec] ⟨false, true, false⟩ = (false, [Ev.mkdir]) := by
  decide

/-- C6 amended: when the destination directory is absent, serialization
attempts to create it, but a failure of that creation IS fatal: the
raised error is caught by the outer handlers and the function returns
the failure outcome without attempting the write. -/
theorem mkdir_failure_fatal (data : List Rec) (w : Bool) :
    save_to_csv data ⟨false, true, w⟩ = (false, [Ev.mkdir]) := rfl

/-- A record whose serialization hits a write error. -/
def c7Rec : Rec :=
  { username := "user".toList, email := "user@sce.com".toList,
    active := "True".toList, roles := "Admin".toList }

/-- C7 counterexample: `save_to_csv` returns the plain boolean `False`
for an empty input — the very same value it returns when the write
fails with an I/O error — so the "empty" outcome is NOT distinct from
the failure outcome (the function's type has no third value). -/
theorem empty_outcome_counterexample :
    (save_to_csv [] ⟨true, false, false⟩).1 = false ∧
    (save_to_csv [c7Rec] ⟨true, false, true⟩).1 = false ∧
    (save_to_csv [] ⟨true, false, false⟩).1 =
      (save_to_csv [c7Rec] ⟨true, false, true⟩).1 := by
  decide

/-- C7 amended: extraction of an empty `data` sequence yields the empty
canonical sequence, and serialization of an empty record sequence
performs no write and returns `False` — reported through the same
boolean as the failure outcome, not through a distinct empty outcome. -/
theorem empty_input_behaviour (fs : FS) :
    extract_user_data (some []) = [] ∧
    save_to_csv [] fs = (false, if fs.dirExists then [] else [Ev.mkdir]) := by
  refine ⟨rfl, ?_⟩
  rcases fs with ⟨de, mf, wfl⟩
  cases de <;> cases mf <;> simp [save_to_csv, saveBody]

/-! ## Theorems: failover dispatch (claims C3, C8, C10) -/

/-- If every endpoint of a list fails, the loop attempts each of them
once, in order, and falls out reporting failure. -/
theorem dispatchLoop_all_fail (attempt : Endpoint → Option Fault) :
    ∀ (fails : List Endpoint), (∀ x ∈ fails, (attempt x).isSome) →
      ∀ g, (dispatchLoop attempt fails g).1 = false ∧
        (dispatchLoop attempt fails g).2.2 = fails := by
  intro fails
  induction fails with
  | nil => exact fun _ g => ⟨rfl, rfl⟩
  | cons f rest ih =>
    intro h g
    obtain ⟨y, hy⟩ := Option.isSome_iff_exists.mp (h f (by simp))
    have hrest := ih (fun x hx => h x (by simp [hx])) (.endpoint f)
    simp [dispatchLoop, hy, hrest.1, hrest.2]

/-- If a prefix of endpoints fails and the next one succeeds, the loop
attempts exactly that prefix plus the succeeding endpoint, in order, and
returns success immediately, never reaching the remaining endpoints. -/
theorem dispatchLoop_success (attempt : Endpoint → Option Fault)
    (e : Endpoint) (he : attempt e = none) :
    ∀ (pre : List Endpoint), (∀ x ∈ pre, (attempt x).isSome) →
      ∀ (post : List Endpoint) (g : GlobalConfig),
        dispatchLoop attempt (pre ++ e :: post) g =
          (true, .endpoint e, pre ++ [e]) := by
  intro pre
  induction pre with
  | nil => intro _ post g; simp [dispatchLoop, he]
  | cons f rest ih =>
    intro h post g
    obtain ⟨y, hy⟩ := Option.isSome_iff_exists.mp (h f (by simp))
    simp [dispatchLoop, hy, ih (fun x hx => h x (by simp [hx])) post (.endpoint f)]

/-- C3: with endpoints `pre ++ e :: post` where every endpoint of `pre`
fails (k-1 attempts) and `e` succeeds, the dispatcher attempts exactly
the endpoints `pre ++ [e]` — k attempts, in list order, each at most
once — and reports success; with a list `fails` of all-failing
endpoints it attempts exactly all of them (N attempts) and reports
failure. -/
theorem failover_attempts (attempt : Endpoint → Option Fault)
    (pre post fails : List Endpoint) (e : Endpoint) (g g' : GlobalConfig)
    (hpre : ∀ x ∈ pre, (attempt x).isSome) (he : attempt e = none)
    (hfails : ∀ x ∈ fails, (attempt x).isSome) :
    dispatchLoop attempt (pre ++ e :: post) g = (true, .endpoint e, pre ++ [e]) ∧
    ((dispatchLoop attempt fails g').1 = false ∧
     (dispatchLoop attempt fails g').2.2 = fails) :=
  ⟨dispatchLoop_success attempt e he pre hpre post g,
   dispatchLoop_all_fail attempt fails hfails g'⟩

/-- Endpoints for the failover witness: port 25 succeeds, others fail. -/
def attemptW : Endpoint → Option Fault :=
  fun ep => if ep.port = 25 then none else some .dns

def epFail1 : Endpoint := ⟨"smtp.example.com".toList, 587, true⟩

def epOk : Endpoint := ⟨"relay.example.com".toList, 25, false⟩

def epFail2 : Endpoint := ⟨"smtp2.example.com".toList, 465, true⟩

theorem failover_attempts_witness :
    ((∀ x ∈ [epFail1], (attemptW x).isSome) ∧ attemptW epOk = none ∧
      (∀ x ∈ [epFail1, epFail2], (attemptW x).isSome)) ∧
    (dispatchLoop attemptW ([epFail1] ++ epOk :: [epFail2]) (.app ⟨[], [], none⟩) =
       (true, .endpoint epOk, [epFail1, epOk]) ∧
     ((dispatchLoop attemptW [epFail1, epFail2] (.app ⟨[], [], none⟩)).1 = false ∧
      (dispatchLoop attemptW [epFail1, epFail2] (.app ⟨[], [], none⟩)).2.2 =
        [epFail1, epFail2])) :=
  ⟨⟨by decide, by decide, by decide⟩,
   failover_attempts attemptW [epFail1] [epFail2] [epFail1, epFail2] epOk
     (.app ⟨[], [], none⟩) (.app ⟨[], [], none⟩)
     (by decide) (by decide) (by decide)⟩

/-- C8: the notification operation never lets a fault escape to the
caller.  Any exception escaping the `try:` body — in particular the
`raise` after the endpoint list is exhausted — is caught by the outer
handler and converted to the boolean result `False`; in particular when
every endpoint fails the caller receives `false` (a return value, so it
cannot override the pipeline's own status). -/
theorem notify_reports_boolean (c0 : AppCfg) (attempt : Endpoint → Option Fault) :
    (∀ g, sendEmailBody c0 attempt = .error g → send_email c0 attempt = (false, g)) ∧
    ((∀ ep, (attempt ep).isSome) → (send_email c0 attempt).1 = false) := by
  constructor
  · intro g hg
    simp [send_email, hg]
  · intro hall
    match hc : c0.email with
    | none => simp [send_email, sendEmailBody, hc]
    | some ec =>
      have hd := dispatchLoop_all_fail attempt
        (smtpConfigs ec.smtpServer ec.smtpPort) (fun x _ => hall x) (.app c0)
      by_cases hen : ec.enabled <;>
        by_cases hrv : ec.recipients = [] ∨ ec.smtpServer = [] <;>
          simp [send_email, sendEmailBody, hc, hen, hrv, hd.1]

def c8Cfg : AppCfg :=
  { outputDir := "out".toList, fileName := "report.csv".toList,
    email := some ⟨true, "smtp.example.com".toList, 25, ["ops@sce.com".toList]⟩ }

def c8Attempt : Endpoint → Option Fault := fun _ => some .dns

theorem notify_reports_boolean_witness :
    sendEmailBody c8Cfg c8Attempt =
      .error (.endpoint ⟨"outlook.office365.com".toList, 587, true⟩) ∧
    send_email c8Cfg c8Attempt =
      (false, .endpoint ⟨"outlook.office365.com".toList, 587, true⟩) ∧
    (send_email c8Cfg c8Attempt).1 = false :=
  ⟨rfl,
   (notify_reports_boolean c8Cfg c8Attempt).1 _ rfl,
   (notify_reports_boolean c8Cfg c8Attempt).2 (fun _ => rfl)⟩

/-- A configuration with email enabled, and an environment in which all
SMTP endpoints refuse the connection. -/
def c10Cfg : AppCfg :=
  { outputDir := "out".toList, fileName := "report.csv".toList,
    email := some ⟨true, "smtp.sce.com".toList, 25, ["iam@sce.com".toList]⟩ }

def c10Attempt : Endpoint → Option Fault := fun _ => some .connRefused

/-- C10 (code bug): `send_email` declares `global config` and then uses
`config` as the loop variable of `for i, config in enumerate(smtp_configs)`,
so after a call that attempts at least one endpoint the module-level
configuration no longer equals the configuration loaded at startup — it
has been rebound to the last attempted transport-endpoint descriptor
(here the final Office 365 fallback). -/
theorem global_config_clobbered :
    (send_email c10Cfg c10Attempt).2 =
      .endpoint ⟨"outlook.office365.com".toList, 587, true⟩ ∧
    (send_email c10Cfg c10Attempt).2 ≠ .app c10Cfg := by
  decide

/-! ## Theorems: sorting (claim C9) -/

/-- Inserting a row with username `u` into a list places it before every
later row with the same username: the `u`-rows of the result are the new
row followed by the `u`-rows of the old list. -/
theorem filter_orderedInsert_of_eq (u : Str) (a : Rec) (ha : a.username = u) :
    ∀ s : List Rec,
      (List.orderedInsert rowLe a s).filter (fun x => decide (x.username = u)) =
        a :: s.filter (fun x => decide (x.username = u)) := by
  intro s
  induction s with
  | nil => simp [List.orderedInsert, List.filter_cons, ha]
  | cons b s ih =>
    by_cases hab : rowLe a b
    · simp [List.orderedInsert, hab, List.filter_cons, ha]
    · have hbu : b.username ≠ u := by
        intro hbu
        apply hab
        show a.username ≤ b.username
        rw [ha, hbu]
      simp [List.orderedInsert, hab, List.filter_cons, hbu, ih]

/-- Inserting a row whose username is not `u` leaves the `u`-rows (and
their order) unchanged. -/
theorem filter_orderedInsert_of_ne (u : Str) (a : Rec) (ha : a.username ≠ u) :
    ∀ s : List Rec,
      (List.orderedInsert rowLe a s).filter (fun x => decide (x.username = u)) =
        s.filter (fun x => decide (x.username = u)) := by
  intro s
  induction s with
  | nil => simp [List.orderedInsert, List.filter_cons, ha]
  | cons b s ih =>
    by_cases hab : rowLe a b
    · simp [List.orderedInsert, hab, List.filter_cons, ha]
    · simp [List.orderedInsert, hab, List.filter_cons, ih]

/-- Stability of the sort: for each username, the rows carrying it keep
their original relative order. -/
theorem sortRows_filter (l : List Rec) (u : Str) :
    (sortRows l).filter (fun x => decide (x.username = u)) =
      l.filter (fun x => decide (x.username = u)) := by
  induction l with
  | nil => rfl
  | cons a l ih =>
    unfold sortRows at ih ⊢
    show (List.orderedInsert rowLe a (List.insertionSort rowLe l)).filter _ = _
    by_cases ha : a.username = u
    · rw [filter_orderedInsert_of_eq u a ha, ih, List.filter_cons]
      simp [ha]
    · rw [filter_orderedInsert_of_ne u a ha, ih, List.filter_cons]
      simp [ha]

/-- C9: the expanded sequence is sorted ascending by the (already
lowercased) `Username` string under the plain case-sensitive
lexicographic comparison; the sort is a permutation; it is stable (for
every username the rows with that username keep their original relative
order); and re-sorting an already-sorted sequence is the identity, so
the sort is idempotent. -/
theorem sort_stable_idempotent (l : List Rec) :
    List.Sorted rowLe (sortRows l) ∧
    (sortRows l).Perm l ∧
    (∀ u : Str, (sortRows l).filter (fun x => decide (x.username = u)) =
       l.filter (fun x => decide (x.username = u))) ∧
    sortRows (sortRows l) = sortRows l :=
  ⟨List.sorted_insertionSort rowLe l, List.perm_insertionSort rowLe l,
   fun u => sortRows_filter l u,
   (List.sorted_insertionSort rowLe l).insertionSort_eq⟩

/-! ## Theorems: roles flattening (claim C5) — string lemmas -/

theorem splitOnChar_not_mem {c : Char} {s : Str} (h : c ∉ s) :
    splitOnChar c s = [s] := by
  induction s with
  | nil => rfl
  | cons x xs ih =>
    have hx : ¬ x = c := fun he => h (he ▸ List.mem_cons_self x xs)
    have hxs : c ∉ xs := fun hm => h (List.mem_cons_of_mem _ hm)
    simp only [splitOnChar, if_neg hx, ih hxs]

theorem splitOnChar_cons_self (c : Char) (ys : Str) :
    splitOnChar c (c :: ys) = [] :: splitOnChar c ys := by
  simp [splitOnChar]

theorem splitOnChar_append_left {c : Char} {xs : Str} (h : c ∉ xs) :
    ∀ (ys : Str) {hd : Str} {tl : List Str}, splitOnChar c ys = hd :: tl →
      splitOnChar c (xs ++ ys) = (xs ++ hd) :: tl := by
  induction xs with
  | nil => intro ys hd tl hys; simpa using hys
  | cons x xs ih =>
    intro ys hd tl hys
    have hx : ¬ x = c := fun he => h (he ▸ List.mem_cons_self x xs)
    have hxs : c ∉ xs := fun hm => h (List.mem_cons_of_mem _ hm)
    simp only [List.cons_append, splitOnChar, if_neg hx, List.append_eq, ih hxs ys hys]

theorem splitOnChar_middle {c : Char} {xs : Str} (h : c ∉ xs) (ys : Str) :
    splitOnChar c (xs ++ c :: ys) = xs :: splitOnChar c ys := by
  simpa using splitOnChar_append_left h (c :: ys) (splitOnChar_cons_self c ys)

theorem dropWhile_append_of_forall {p : Char → Bool} {a : Str}
    (h : ∀ x ∈ a, p x = true) (t : Str) :
    (a ++ t).dropWhile p = t.dropWhile p := by
  induction a with
  | nil => rfl
  | cons x a ih =>
    simp only [List.cons_append, List.dropWhile_cons, h x (by simp), if_true]
    exact ih fun y hy => h y (by simp [hy])

theorem trim_of_forall_space {s : Str} (h : ∀ x ∈ s, pyIsSpace x = true) :
    trim s = [] := by
  unfold trim
  have h1 : s.dropWhile pyIsSpace = [] := List.dropWhile_eq_nil_iff.mpr h
  simp [h1]

/-- A string fixed by `trim` is fixed by each one-sided strip. -/
theorem trim_eq_self_parts {r : Str} (h : trim r = r) :
    r.dropWhile pyIsSpace = r ∧ r.reverse.dropWhile pyIsSpace = r.reverse := by
  have hs1 : (r.dropWhile pyIsSpace).Sublist r :=
    (List.dropWhile_suffix pyIsSpace).sublist
  have hs2 : ((r.dropWhile pyIsSpace).reverse.dropWhile pyIsSpace).Sublist
      (r.dropWhile pyIsSpace).reverse :=
    (List.dropWhile_suffix pyIsSpace).sublist
  have hlen : ((r.dropWhile pyIsSpace).reverse.dropWhile pyIsSpace).length = r.length := by
    have := congrArg List.length h
    simpa [trim] using this
  have hlen1 : (r.dropWhile pyIsSpace).length = r.length := by
    have h1 := hs1.length_le
    have h2 := hs2.length_le
    simp only [List.length_reverse] at h2
    omega
  have hfix1 : r.dropWhile pyIsSpace = r := hs1.eq_of_length hlen1
  refine ⟨hfix1, ?_⟩
  have : ((r.dropWhile pyIsSpace).reverse.dropWhile pyIsSpace).reverse = r := h
  rw [hfix1] at this
  have h2 : r.reverse.dropWhile pyIsSpace = r.reverse := by
    have := congrArg List.reverse this
    simpa using this
  exact h2

theorem not_space_head {h : Char} {t : Str}
    (hd : (h :: t).dropWhile pyIsSpace = h :: t) : pyIsSpace h = false := by
  by_contra hc
  have hh : pyIsSpace h = true := by simpa using hc
  rw [List.dropWhile_cons, if_pos hh] at hd
  have hlen := congrArg List.length hd
  have hle := (List.dropWhile_suffix (l := t) pyIsSpace).sublist.length_le
  simp only [List.length_cons] at hlen
  omega

/-- `strip` removes whitespace padding around a stripped string. -/
theorem trim_pad {a b r : Str} (ha : ∀ x ∈ a, pyIsSpace x = true)
    (hb : ∀ x ∈ b, pyIsSpace x = true) (hr : trim r = r) :
    trim (a ++ r ++ b) = r := by
  cases r with
  | nil =>
    have : trim (a ++ b) = [] := trim_of_forall_space (by
      intro x hx
      rcases List.mem_append.mp hx with hxa | hxb
      · exact ha x hxa
      · exact hb x hxb)
    simpa using this
  | cons h t =>
    obtain ⟨hL, hR⟩ := trim_eq_self_parts hr
    have hh : pyIsSpace h = false := not_space_head hL
    unfold trim
    rw [List.append_assoc, dropWhile_append_of_forall ha]
    rw [show ((h :: t) ++ b).dropWhile pyIsSpace = (h :: t) ++ b from by
      simp [List.dropWhile_cons, hh]]
    rw [List.reverse_append, dropWhile_append_of_forall
      (fun x hx => hb x (List.mem_reverse.mp hx)), hR]
    simp

theorem not_mem_of_forall_space {c : Char} (hc : pyIsSpace c = false) {a : Str}
    (h : ∀ x ∈ a, pyIsSpace x = true) : c ∉ a := by
  intro hm
  rw [h c hm] at hc
  exact Bool.noConfusion hc

theorem not_mem_joinSep {c : Char} {sep : Str} (hsep : c ∉ sep) :
    ∀ {L : List Str}, (∀ x ∈ L, c ∉ x) → c ∉ joinSep sep L
  | [], _ => by simp [joinSep]
  | [x], h => by simpa [joinSep] using h x (by simp)
  | x :: y :: t, h => by
    have hx : c ∉ x := h x (by simp)
    have ht : c ∉ joinSep sep (y :: t) :=
      not_mem_joinSep hsep fun z hz => h z (by simp at hz ⊢; tauto)
    simp only [joinSep, List.append_assoc, List.mem_append]
    push_neg
    exact ⟨hx, hsep, ht⟩

theorem comsp_eq : comsp = [',', ' '] := rfl

theorem spbarsp_eq : spbarsp = [' ', '|', ' '] := rfl

/-- Splitting at an explicit first comma peels off one (possibly empty)
token. -/
theorem commaTokens_split {xs : Str} (h : (',' : Char) ∉ xs) (ys : Str) :
    commaTokens (xs ++ ',' :: ys) =
      (if trim xs = [] then [] else [trim xs]) ++ commaTokens ys := by
  rw [commaTokens, splitOnChar_middle h]
  by_cases hx : trim xs = [] <;> simp [hx, commaTokens]

/-- The comma tokens of a `', '`-join surrounded by whitespace padding
are exactly its non-empty entries, in order. -/
theorem commaTokens_pad_join :
    ∀ (L : List Str) (a b : Str),
      (∀ x ∈ a, pyIsSpace x = true) → (∀ x ∈ b, pyIsSpace x = true) →
      (∀ r ∈ L, trim r = r ∧ ',' ∉ r) →
      commaTokens (a ++ joinSep comsp L ++ b) = L.filter (· ≠ [])
  | [], a, b, ha, hb, _ => by
    have hab : ∀ x ∈ a ++ b, pyIsSpace x = true := by
      intro x hx
      rcases List.mem_append.mp hx with h | h
      · exact ha x h
      · exact hb x h
    have hnc : (',' : Char) ∉ a ++ b := not_mem_of_forall_space (by decide) hab
    simp only [joinSep, List.append_nil]
    rw [commaTokens, splitOnChar_not_mem hnc]
    simp [trim_of_forall_space hab]
  | [r], a, b, ha, hb, hL => by
    obtain ⟨htr, hcr⟩ := hL r (by simp)
    have hnc : (',' : Char) ∉ a ++ r ++ b := by
      intro hm
      rcases List.mem_append.mp hm with hm1 | hm2
      · rcases List.mem_append.mp hm1 with hma | hmr
        · exact not_mem_of_forall_space (by decide) ha hma
        · exact hcr hmr
      · exact not_mem_of_forall_space (by decide) hb hm2
    show commaTokens (a ++ r ++ b) = _
    rw [commaTokens, splitOnChar_not_mem hnc]
    simp only [List.map_cons, List.map_nil]
    rw [trim_pad ha hb htr]
  | r :: r' :: t, a, b, ha, hb, hL => by
    obtain ⟨htr, hcr⟩ := hL r (by simp)
    have har : (',' : Char) ∉ a ++ r := by
      intro hm
      rcases List.mem_append.mp hm with h | h
      · exact not_mem_of_forall_space (by decide) ha h
      · exact hcr h
    have hrec := commaTokens_pad_join (r' :: t) [' '] b (by decide) hb
      (fun x hx => hL x (List.mem_cons_of_mem r hx))
    have hstr : a ++ joinSep comsp (r :: r' :: t) ++ b =
        (a ++ r) ++ ',' :: ([' '] ++ joinSep comsp (r' :: t) ++ b) := by
      simp only [joinSep, comsp_eq]
      simp [List.append_assoc]
    rw [hstr, commaTokens_split har]
    rw [show ([' '] ++ joinSep comsp (r' :: t) ++ b) =
      ([' '] ++ joinSep comsp (r' :: t) ++ b) from rfl, hrec]
    have hta : trim (a ++ r) = r := by
      have := trim_pad ha (b := []) (by simp) htr
      simpa using this
    rw [hta]
    by_cases hre : r = [] <;> simp [hre]

/-- Appending `', ' ++ join(org)` to `join(rs)` is the join of the
concatenation, up to replacing an empty `rs` by the singleton empty
string. -/
theorem joinSep_merge {org : List Str} (horg : org ≠ []) :
    ∀ (rs : List Str),
      joinSep comsp rs ++ comsp ++ joinSep comsp org =
        joinSep comsp ((if rs = [] then [[]] else rs) ++ org)
  | [] => by
    obtain ⟨o, os, rfl⟩ := List.exists_cons_of_ne_nil horg
    cases os <;> simp [joinSep]
  | [r] => by
    obtain ⟨o, os, rfl⟩ := List.exists_cons_of_ne_nil horg
    cases os <;> simp [joinSep]
  | r :: r' :: t => by
    have ih := joinSep_merge horg (r' :: t)
    rw [if_neg (by simp)] at ih
    rw [if_neg (by simp)]
    show joinSep comsp (r :: r' :: t) ++ comsp ++ joinSep comsp org =
      joinSep comsp (r :: r' :: (t ++ org))
    rw [show joinSep comsp (r :: r' :: (t ++ org)) =
        r ++ comsp ++ joinSep comsp (r' :: (t ++ org)) from rfl]
    rw [show joinSep comsp (r :: r' :: t) =
        r ++ comsp ++ joinSep comsp (r' :: t) from rfl]
    rw [show (r' : Str) :: (t ++ org) = (r' :: t) ++ org from rfl, ← ih]
    simp [List.append_assoc]

/-- If a `', '`-join is the empty string, the list had no non-empty
entries. -/
theorem filter_eq_nil_of_joinSep_nil :
    ∀ {L : List Str}, joinSep comsp L = [] → L.filter (· ≠ []) = []
  | [], _ => rfl
  | [x], h => by
    simp only [joinSep] at h
    simp [h]
  | x :: y :: t, h => by
    simp only [joinSep] at h
    rw [List.append_eq_nil] at h
    rw [List.append_eq_nil] at *
    exact absurd h.1.2 (by simp [comsp_eq])

theorem joinSep_nil (sep : Str) : joinSep sep [] = [] := rfl

theorem joinSep_singleton (sep x : Str) : joinSep sep [x] = x := rfl

theorem joinSep_cons_cons (sep x y : Str) (t : List Str) :
    joinSep sep (x :: y :: t) = x ++ sep ++ joinSep sep (y :: t) := rfl

theorem orgTail_nil : orgTail [] = [] := rfl

theorem orgTail_ne {org : List Str} (h : org ≠ []) :
    orgTail org = comsp ++ joinSep comsp org := by
  simp [orgTail, h]

/-- The central parsing lemma: the expansion tokens of a whitespace-
padded `' | '`-join of `', '`-joined role groups, optionally followed by
`', ' ++ join(org)`, are exactly the non-empty roles in encounter order,
followed by the non-empty organization roles. -/
theorem tokens_pipe :
    ∀ (RS : List (List Str)) (p : Str) (org : List Str),
      (∀ x ∈ p, pyIsSpace x = true) →
      (∀ rs ∈ RS, ∀ r ∈ rs, trim r = r ∧ ',' ∉ r ∧ '|' ∉ r) →
      (∀ r ∈ org, trim r = r ∧ ',' ∉ r ∧ '|' ∉ r) →
      ((splitOnChar '|'
          (p ++ joinSep spbarsp (RS.map (joinSep comsp)) ++ orgTail org)).map
        commaTokens).flatten = (RS.flatten ++ org).filter (· ≠ [])
  | [], p, org, hp, _, horg => by
    have hpb : ('|' : Char) ∉ p := not_mem_of_forall_space (by decide) hp
    by_cases ho : org = []
    · subst ho
      simp only [List.map_nil, joinSep_nil, orgTail_nil, List.append_nil]
      rw [splitOnChar_not_mem hpb]
      have hct := commaTokens_pad_join [] p [] hp (by simp) (by simp)
      simp only [joinSep_nil, List.append_nil] at hct
      simp [hct]
    · have hjo : ('|' : Char) ∉ joinSep comsp org :=
        not_mem_joinSep (by decide) (fun r hr => (horg r hr).2.2)
      simp only [List.map_nil, joinSep_nil, orgTail_ne ho, List.append_nil]
      have hstr : p ++ (comsp ++ joinSep comsp org) =
          p ++ ',' :: ([' '] ++ joinSep comsp org ++ []) := by
        rw [comsp_eq]
        simp
      rw [hstr]
      have hnb : ('|' : Char) ∉ p ++ ',' :: ([' '] ++ joinSep comsp org ++ []) := by
        intro hm
        rcases List.mem_append.mp hm with h | h
        · exact hpb h
        · rcases List.mem_cons.mp h with h | h
          · exact absurd h (by decide)
          · rcases List.mem_append.mp h with h | h
            · rcases List.mem_append.mp h with h | h
              · exact absurd h (by decide)
              · exact hjo h
            · simp at h
      rw [splitOnChar_not_mem hnb]
      have hcp : (',' : Char) ∉ p := not_mem_of_forall_space (by decide) hp
      simp only [List.map_cons, List.map_nil, List.flatten_cons, List.flatten_nil,
        List.append_nil]
      rw [commaTokens_split hcp, trim_of_forall_space hp, if_pos rfl]
      have hct := commaTokens_pad_join org [' '] [] (by decide) (by simp)
        (fun r hr => ⟨(horg r hr).1, (horg r hr).2.1⟩)
      simp only [List.append_nil] at hct
      simpa using hct
  | [rs], p, org, hp, hRS, horg => by
    have hwfl : ∀ r ∈ rs, trim r = r ∧ ',' ∉ r :=
      fun r hr => ⟨(hRS rs (by simp) r hr).1, (hRS rs (by simp) r hr).2.1⟩
    have hgp : ('|' : Char) ∉ joinSep comsp rs :=
      not_mem_joinSep (by decide) (fun r hr => (hRS rs (by simp) r hr).2.2)
    have hpb : ('|' : Char) ∉ p := not_mem_of_forall_space (by decide) hp
    by_cases ho : org = []
    · subst ho
      simp only [List.map_cons, List.map_nil, joinSep_singleton, orgTail_nil,
        List.append_nil]
      have hnb : ('|' : Char) ∉ p ++ joinSep comsp rs := by
        intro hm
        rcases List.mem_append.mp hm with h | h
        · exact hpb h
        · exact hgp h
      rw [splitOnChar_not_mem hnb]
      have hct := commaTokens_pad_join rs p [] hp (by simp) hwfl
      simp only [List.append_nil] at hct
      simp [hct]
    · have hjo : ('|' : Char) ∉ joinSep comsp org :=
        not_mem_joinSep (by decide) (fun r hr => (horg r hr).2.2)
      have hmerge := joinSep_merge ho rs
      simp only [List.map_cons, List.map_nil, joinSep_singleton, orgTail_ne ho]
      have hstr : p ++ joinSep comsp rs ++ (comsp ++ joinSep comsp org) =
          p ++ joinSep comsp ((if rs = [] then [[]] else rs) ++ org) := by
        rw [← hmerge]
        simp [List.append_assoc]
      rw [hstr]
      have hwfl2 : ∀ r ∈ (if rs = [] then [[]] else rs) ++ org,
          trim r = r ∧ ',' ∉ r := by
        intro r hr
        rcases List.mem_append.mp hr with h | h
        · by_cases hre : rs = []
          · rw [if_pos hre] at h
            simp only [List.mem_singleton] at h
            subst h
            exact ⟨rfl, by simp⟩
          · rw [if_neg hre] at h
            exact hwfl r h
        · exact ⟨(horg r h).1, (horg r h).2.1⟩
      have hnb : ('|' : Char) ∉
          p ++ joinSep comsp ((if rs = [] then [[]] else rs) ++ org) := by
        intro hm
        rcases List.mem_append.mp hm with h | h
        · exact hpb h
        · rw [← hmerge] at h
          rcases List.mem_append.mp h with h | h
          · rcases List.mem_append.mp h with h | h
            · exact hgp h
            · exact absurd h (by decide)
          · exact hjo h
      rw [splitOnChar_not_mem hnb]
      have hct := commaTokens_pad_join ((if rs = [] then [[]] else rs) ++ org) p []
        hp (by simp) hwfl2
      simp only [List.append_nil] at hct
      simp only [List.map_cons, List.map_nil, List.flatten_cons, List.flatten_nil,
        List.append_nil, hct]
      by_cases hre : rs = [] <;> simp [hre, List.filter_append]
  | rs :: rs' :: t, p, org, hp, hRS, horg => by
    have hwfl : ∀ r ∈ rs, trim r = r ∧ ',' ∉ r :=
      fun r hr => ⟨(hRS rs (by simp) r hr).1, (hRS rs (by simp) r hr).2.1⟩
    have hgp : ('|' : Char) ∉ joinSep comsp rs :=
      not_mem_joinSep (by decide) (fun r hr => (hRS rs (by simp) r hr).2.2)
    have hpb : ('|' : Char) ∉ p := not_mem_of_forall_space (by decide) hp
    have hstr : p ++ joinSep spbarsp ((rs :: rs' :: t).map (joinSep comsp)) ++ orgTail org =
        (p ++ joinSep comsp rs ++ [' ']) ++ '|' ::
          ([' '] ++ joinSep spbarsp ((rs' :: t).map (joinSep comsp)) ++ orgTail org) := by
      rw [show (rs :: rs' :: t).map (joinSep comsp) =
        joinSep comsp rs :: joinSep comsp rs' :: t.map (joinSep comsp) from rfl]
      rw [joinSep_cons_cons, spbarsp_eq]
      simp [List.append_assoc]
    have hnb : ('|' : Char) ∉ p ++ joinSep comsp rs ++ [' '] := by
      intro hm
      rcases List.mem_append.mp hm with h | h
      · rcases List.mem_append.mp h with h | h
        · exact hpb h
        · exact hgp h
      · exact absurd h (by decide)
    rw [hstr, splitOnChar_middle hnb]
    simp only [List.map_cons, List.flatten_cons]
    have hhead := commaTokens_pad_join rs p [' '] hp (by decide) hwfl
    have hrest := tokens_pipe (rs' :: t) [' '] org (by decide)
      (fun rs0 h0 => hRS rs0 (List.mem_cons_of_mem rs h0)) horg
    rw [show List.map (joinSep comsp) (rs' :: t) =
      joinSep comsp rs' :: List.map (joinSep comsp) t from rfl] at hrest
    rw [hhead, hrest]
    simp [List.filter_append, List.append_assoc]

/-- `roleTokens` distributes over the pipe-parts. -/
theorem roleTokens_eqn (s : Str) :
    roleTokens s = ((splitOnChar '|' s).map commaTokens).flatten := by
  rw [roleTokens, List.filter_flatten, List.map_map]
  rfl

/-- If the workspace string is empty, no workspace role survives the
filter (every membership contributed an empty join). -/
theorem ws_nil_flatten (a : Attrs) (hws0 : wsString a = []) :
    (((a.workspaceMemberships.getD []).map rolesOf).flatten).filter (· ≠ []) = [] := by
  rcases hm : a.workspaceMemberships.getD [] with _ | ⟨m, ms⟩
  · simp
  · rcases ms with _ | ⟨m2, t⟩
    · simp only [wsString, hm, if_neg (List.cons_ne_nil m [])] at hws0
      simp only [List.map_cons, List.map_nil, joinSep_singleton] at hws0
      have hmf : (rolesOf m).filter (· ≠ []) = [] :=
        filter_eq_nil_of_joinSep_nil (show joinSep comsp (rolesOf m) = [] from hws0)
      rw [show (List.map rolesOf [m]).flatten = rolesOf m from by simp]
      exact hmf
    · simp only [wsString, hm, if_neg (List.cons_ne_nil m (m2 :: t))] at hws0
      simp only [List.map_cons, joinSep_cons_cons, spbarsp_eq] at hws0
      simp at hws0

/-- With every role string stripped and delimiter-free, the expansion
tokens of the built `Roles` string are exactly the non-empty workspace
roles in encounter order followed by the non-empty organization roles. -/
theorem roleTokens_rolesString (a : Attrs)
    (hws : ∀ m ∈ a.workspaceMemberships.getD [], ∀ r ∈ rolesOf m,
      trim r = r ∧ ',' ∉ r ∧ '|' ∉ r)
    (horg : ∀ r ∈ a.organizationRoles.getD [], trim r = r ∧ ',' ∉ r ∧ '|' ∉ r) :
    roleTokens (rolesString a) =
      (((a.workspaceMemberships.getD []).map rolesOf).flatten ++
        a.organizationRoles.getD []).filter (· ≠ []) := by
  have hRS : ∀ rs ∈ (a.workspaceMemberships.getD []).map rolesOf,
      ∀ r ∈ rs, trim r = r ∧ ',' ∉ r ∧ '|' ∉ r := by
    intro rs hrs r hr
    obtain ⟨m, hm, rfl⟩ := List.mem_map.mp hrs
    exact hws m hm r hr
  have hmapEq : (a.workspaceMemberships.getD []).map membershipGroup =
      ((a.workspaceMemberships.getD []).map rolesOf).map (joinSep comsp) := by
    rw [List.map_map]
    rfl
  unfold rolesString
  by_cases hOrg : orgString a = []
  · rw [if_pos hOrg]
    have horgF : (a.organizationRoles.getD []).filter (· ≠ []) = [] :=
      filter_eq_nil_of_joinSep_nil
        (show joinSep comsp (a.organizationRoles.getD []) = [] from hOrg)
    by_cases hmss : a.workspaceMemberships.getD [] = []
    · have hws0 : wsString a = [] := by simp [wsString, hmss]
      rw [hws0, hmss]
      rw [show roleTokens [] = [] from rfl]
      rw [show (List.map rolesOf ([] : List Membership)).flatten = [] from rfl,
        List.nil_append, horgF]
    · have hws1 : wsString a =
          joinSep spbarsp ((a.workspaceMemberships.getD []).map membershipGroup) := by
        simp [wsString, hmss]
      rw [hws1, hmapEq]
      have hT := tokens_pipe ((a.workspaceMemberships.getD []).map rolesOf) [] []
        (by simp) hRS (by simp)
      simp only [orgTail_nil, List.append_nil, List.nil_append] at hT
      rw [roleTokens_eqn, hT, List.filter_append, horgF, List.append_nil]
  · rw [if_neg hOrg]
    have hOrgL : a.organizationRoles.getD [] ≠ [] := by
      intro h
      apply hOrg
      show joinSep comsp (a.organizationRoles.getD []) = []
      rw [h]
      rfl
    by_cases hws0 : wsString a = []
    · rw [if_pos hws0]
      have hjo : ('|' : Char) ∉ joinSep comsp (a.organizationRoles.getD []) :=
        not_mem_joinSep (by decide) (fun r hr => (horg r hr).2.2)
      rw [show orgString a = joinSep comsp (a.organizationRoles.getD []) from rfl]
      rw [roleTokens_eqn, splitOnChar_not_mem hjo]
      have hct := commaTokens_pad_join (a.organizationRoles.getD []) [] []
        (by simp) (by simp) (fun r hr => ⟨(horg r hr).1, (horg r hr).2.1⟩)
      simp only [List.nil_append, List.append_nil] at hct
      have hwsF := ws_nil_flatten a hws0
      simp only [List.map_cons, List.map_nil, List.flatten_cons, List.flatten_nil,
        List.append_nil]
      rw [hct, List.filter_append, hwsF, List.nil_append]
    · rw [if_neg hws0]
      have hmss : a.workspaceMemberships.getD [] ≠ [] := by
        intro h
        apply hws0
        simp [wsString, h]
      have hws1 : wsString a =
          joinSep spbarsp ((a.workspaceMemberships.getD []).map membershipGroup) := by
        simp [wsString, hmss]
      rw [hws1, hmapEq]
      have hT := tokens_pipe ((a.workspaceMemberships.getD []).map rolesOf) []
        (a.organizationRoles.getD []) (by simp) hRS horg
      rw [orgTail_ne hOrgL] at hT
      simp only [List.nil_append] at hT
      rw [show orgString a = joinSep comsp (a.organizationRoles.getD []) from rfl]
      rw [roleTokens_eqn, List.append_assoc, hT]

/-- C5: for every record with attributes whose role strings are
non-empty, stripped, and free of the `','` and `'|'` delimiters, the
token sequence recovered from the canonical `Roles` value (by the
pipeline's own expansion split) is the flattening of all
workspace-membership role lists in membership encounter order with role
order preserved — a membership with no `workspaceRoles` key contributing
the default `['No role']` — followed by the organization roles in
encounter order, with no deduplication. -/
theorem roles_are_flattened (a : Attrs)
    (hws : ∀ m ∈ a.workspaceMemberships.getD [], ∀ r ∈ rolesOf m, wfRole r)
    (horg : ∀ r ∈ a.organizationRoles.getD [], wfRole r) :
    roleTokens (rolesString a) =
      ((a.workspaceMemberships.getD []).map rolesOf).flatten ++
        a.organizationRoles.getD [] := by
  rw [roleTokens_rolesString a
    (fun m hm r hr => (hws m hm r hr).2)
    (fun r hr => (horg r hr).2)]
  rw [List.filter_eq_self]
  intro r hr
  rcases List.mem_append.mp hr with h | h
  · obtain ⟨rs, hrs, hrrs⟩ := List.mem_flatten.mp h
    obtain ⟨m, hm, rfl⟩ := List.mem_map.mp hrs
    simpa using (hws m hm r hrrs).1
  · simpa using (horg r h).1

/-- The spec's own example, with a second membership lacking
`workspaceRoles` (contributing `['No role']`): tokens are
`Admin, User, No role, Viewer` in encounter order. -/
def c5Attrs : Attrs :=
  { userName := some "Jane.Doe".toList
    email := some "Jane.Doe@SCE.com".toList
    active := some (.vbool true)
    workspaceMemberships := some [⟨some ["Admin".toList, "User".toList]⟩, ⟨none⟩]
    organizationRoles := some ["Viewer".toList] }

theorem roles_are_flattened_witness :
    (∀ m ∈ c5Attrs.workspaceMemberships.getD [], ∀ r ∈ rolesOf m, wfRole r) ∧
    (∀ r ∈ c5Attrs.organizationRoles.getD [], wfRole r) ∧
    roleTokens (rolesString c5Attrs) =
      ((c5Attrs.workspaceMemberships.getD []).map rolesOf).flatten ++
        c5Attrs.organizationRoles.getD [] :=
  ⟨by decide, by decide, roles_are_flattened c5Attrs (by decide) (by decide)⟩

end WIgam
